import Mathlib

/-!
Verification model of the `zm_ai` repository (Python sources), shallowly
embedded in Lean 4.

* `Poll` models `poll_zm_for_events.py`: the processed-ID store, the
  per-camera sliding-window rate limiter, and one iteration of the body of
  `loop_monitor` (fresh-event pass, pending-event reconciliation pass, and
  the full rewrite of the store file).
* `Export` models `zm_export.py`: `_safe_id` / `_counter_path`, the
  event-collection and trim computation of `events_videos_export`, the
  concat mode decision and the progress-snapshot emission of
  `_run_ffmpeg_with_progress` / `_concat_downloads`.

Timestamps are modelled as integers (seconds); wall-clock quantities of the
export pipeline are modelled as rationals.  HTTP calls are modelled as
oracle functions (`fetch`, `ok`): the embedding records exactly the state
updates the Python code performs with their results.
-/

namespace Poll

/-- Python `dict` as an insertion-ordered association list (`d[k]`). -/
def dictGet (k : String) : List (String × α) → Option α
  | [] => none
  | (k', v) :: rest => if k' = k then some v else dictGet k rest

/-- `k in d`. -/
def dictMem (k : String) (d : List (String × α)) : Bool :=
  (dictGet k d).isSome

/-- `d[k] = v`: updates in place when the key exists, else appends. -/
def dictInsert (k : String) (v : α) : List (String × α) → List (String × α)
  | [] => [(k, v)]
  | (k', v') :: rest =>
      if k' = k then (k, v) :: rest else (k', v') :: dictInsert k v rest

/-- `d.pop(k, None)` / `d.pop(k)`: removes the key when present. -/
def dictPop (k : String) : List (String × α) → List (String × α)
  | [] => []
  | (k', v') :: rest =>
      if k' = k then rest else (k', v') :: dictPop k rest

/-- An event record as assembled by `get_events_in_range_by_start`:
`Id`, `MonitorId`, and the possibly-null `StartDateTime` / `EndDateTime`
fields (the keys themselves are always present in the Python dict). -/
structure Ev where
  id : String
  monitorId : String
  startDT : Option Int
  endDT : Option Int
deriving DecidableEq, Repr

/-- A record returned by `get_event_by_id` (re-fetch of a pending event):
it carries only `Id`, `EndDateTime` and `MonitorId`. -/
structure Upd where
  id : String
  endDT : Option Int
  monitorId : String
deriving DecidableEq, Repr

/-- The sliding-window update of `loop_monitor`:
`window_start = event_time - TIME_WINDOW`;
`file_timestamps[cam] = [t for t in file_timestamps[cam] if t >= window_start]`;
`file_timestamps[cam].append(event_time)`. -/
def windowStep (W : Int) (win : List Int) (t : Int) : List Int :=
  win.filter (fun x => decide (t - W ≤ x)) ++ [t]

/-- The rate-limit test of `loop_monitor`:
`len(file_timestamps[cam_id]) > int(THRESHOLD)`. -/
def slideSuppress (T : Nat) (win : List Int) : Bool :=
  decide (win.length > T)

/-- Runs the sliding-window filter of `loop_monitor` over a sequence of
closed-event timestamps for one camera, returning the final window and, per
event, whether the event was allowed through to download (`true`) rather
than suppressed by the rate limit. -/
def runWindow (W : Int) (T : Nat) : List Int → List Int → List Int × List Bool
  | win, [] => (win, [])
  | win, t :: ts =>
      let w := windowStep W win t
      let r := runWindow W T w ts
      (r.1, (!slideSuppress T w) :: r.2)

/-- `PROCESSED_RETENTION_HOURS = 1`. -/
def PROCESSED_RETENTION_HOURS : Int := 1

/-- `load_processed_ids`: reads the store file and keeps only the entries
whose timestamp is at least `now - PROCESSED_RETENTION_HOURS` (the parsed
`(eid, ts)` lines; malformed lines are already dropped from the input). -/
def load_processed_ids (fileEntries : List (String × Int)) (now : Int) :
    List (String × Int) :=
  fileEntries.filter
    (fun p => decide (now - PROCESSED_RETENTION_HOURS * 3600 ≤ p.2))

/-- `cleanup_processed_ids`: rewrites the store file with every entry of the
in-memory dict, unconditionally — no entry is filtered out. -/
def cleanup_processed_ids (processed : List (String × Int)) :
    List (String × Int) :=
  processed

/-- The mutable state of `loop_monitor` across one cycle:
`processed_ids`, `pending_events`, `file_timestamps` (per camera), the
download side effects (`attempts` records every call to
`download_event_video`, `queue` the files it wrote on success), and
`leaked`, the value of the part-1 loop variable `ev`, which stays bound
after the `for ev in events` loop ends and is read by the pending pass. -/
structure St where
  processed : List (String × Int)
  pending : List (String × Ev)
  windows : List (String × List Int)
  attempts : List String
  queue : List String
  leaked : Option Ev
deriving DecidableEq, Repr

/-- `file_timestamps[cam_id]` — a `defaultdict(list)` lookup. -/
def wGet (windows : List (String × List Int)) (cam : String) : List Int :=
  (dictGet cam windows).getD []

/-- `download_event_video(eid, monitor_id)`: records the attempt, and on an
HTTP 200 (`ok eid`) writes `<monitor_id>-<eid>.mp4` into the alarm queue
and returns `True`; otherwise returns `False`.  The caller discards the
returned Bool. -/
def download_event_video (ok : String → Bool) (eid cam : String) (st : St) :
    Bool × St :=
  if ok eid then
    (true, { st with attempts := st.attempts ++ [eid],
                     queue := st.queue ++ [cam ++ "-" ++ eid ++ ".mp4"] })
  else
    (false, { st with attempts := st.attempts ++ [eid] })

/-- One iteration of the part-1 loop `for ev in events` of `loop_monitor`.
The `required_keys` guard passes for every record built by
`get_events_in_range_by_start` (it always sets the `Id`, `MonitorId` and
`StartDateTime` keys), so it is not a branch here.  `none` models an
exception aborting the cycle (`strptime` on a null `StartDateTime`). -/
def processFreshEvent (W : Int) (T : Nat) (ok : String → Bool)
    (st : St) (ev : Ev) : Option St :=
  let st := { st with leaked := some ev }
  if dictMem ev.id st.processed then some st
  else
    match ev.endDT with
    | some _ =>
        match ev.startDT with
        | none => none
        | some t =>
            let win := windowStep W (wGet st.windows ev.monitorId) t
            let st := { st with windows := dictInsert ev.monitorId win st.windows }
            if slideSuppress T win then
              some { st with processed := dictInsert ev.id t st.processed }
            else
              let st := { st with processed := dictInsert ev.id t st.processed,
                                  pending := dictPop ev.id st.pending }
              some (download_event_video ok ev.id ev.monitorId st).2
    | none => some { st with pending := dictInsert ev.id ev st.pending }

/-- One iteration of the part-2 loop `for eid in list(pending_events)` of
`loop_monitor`.  `fetch` models `get_event_by_id`; a `none` result covers
both a failed fetch and the missing-required-fields retry guard (a
successful fetch always carries `Id` and `MonitorId`).  The guard
`"StartDateTime" not in ev_original` never fires, because stored part-1
records always contain the key.  `event_time` is computed from
`ev["StartDateTime"]` where `ev` is the stale part-1 loop variable
(`st.leaked`), not from `ev_original`; a missing binding or a null field
raises, aborting the cycle (`none`). -/
def processPendingEvent (W : Int) (T : Nat) (fetch : String → Option Upd)
    (ok : String → Bool) (st : St) (eid : String) : Option St :=
  if dictMem eid st.processed then
    some { st with pending := dictPop eid st.pending }
  else
    match dictGet eid st.pending with
    | none => none
    | some _evOriginal =>
        match fetch eid with
        | none => some { st with pending := dictPop eid st.pending }
        | some upd =>
            match upd.endDT with
            | none => some st
            | some _ =>
                let cam := upd.monitorId
                match st.leaked.bind Ev.startDT with
                | none => none
                | some t =>
                    let win := windowStep W (wGet st.windows cam) t
                    let st := { st with windows := dictInsert cam win st.windows }
                    if slideSuppress T win then
                      some { st with processed := dictInsert eid t st.processed,
                                     pending := dictPop eid st.pending }
                    else
                      let st := { st with processed := dictInsert eid t st.processed,
                                          pending := dictPop eid st.pending }
                      some (download_event_video ok eid cam st).2

/-- Folds a fallible per-item step over a list; `none` aborts (the
exception propagates out of the `for` loop). -/
def foldCycle (f : St → α → Option St) : St → List α → Option St
  | st, [] => some st
  | st, x :: xs =>
      match f st x with
      | none => none
      | some st' => foldCycle f st' xs

/-- One full iteration of the `while True` body of `loop_monitor`: the
fresh-event pass over the fetched `events`, then the pending-event
reconciliation pass over the key snapshot `list(pending_events)`.
(`cleanup_processed_ids` then rewrites the store file from
`st.processed`.) -/
def runCycle (W : Int) (T : Nat) (fetch : String → Option Upd)
    (ok : String → Bool) (events : List Ev) (st : St) : Option St :=
  match foldCycle (processFreshEvent W T ok) st events with
  | none => none
  | some st1 => foldCycle (processPendingEvent W T fetch ok) st1 (st1.pending.map Prod.fst)

end Poll

namespace Export

/-- Membership in the regex character class `[A-Za-z0-9._-]` of `_safe_id`. -/
def allowedChar (c : Char) : Bool :=
  c.isAlpha || c.isDigit || c = '.' || c = '_' || c = '-'

/-- `re.sub(r"[^A-Za-z0-9._-]+", "-", s)`: each maximal run of characters
outside the class is replaced by a single `'-'`.  The Bool argument records
whether the previous character belonged to such a run. -/
def subRuns : Bool → List Char → List Char
  | _, [] => []
  | inRun, c :: cs =>
      if allowedChar c then c :: subRuns false cs
      else if inRun then subRuns true cs
      else '-' :: subRuns true cs

/-- `str.strip("-")`: removes `'-'` characters from both ends. -/
def stripDashes (l : List Char) : List Char :=
  ((l.dropWhile (fun c => c = '-')).reverse.dropWhile (fun c => c = '-')).reverse

/-- `_safe_id(s)`: `re.sub(r"[^A-Za-z0-9._-]+", "-", (s or "")).strip("-")`. -/
def safe_id (s : Option String) : String :=
  String.mk (stripDashes (subRuns false (s.getD "").data))

/-- `_counter_path(job_id)`: the name of the snapshot file placed under the
temp directory, `f"counter_{_safe_id(job_id)}.json"`. -/
def counter_path_name (job_id : Option String) : String :=
  "counter_" ++ safe_id job_id ++ ".json"

/-- An event row of the ZoneMinder database as read by
`events_videos_export` (`MonitorId`, `StartTime`, nullable `EndTime`).
Times are in whole seconds (the parsed `datetime` values have second
resolution), carried as integers. -/
structure DbEv where
  monitorId : Int
  startTime : Int
  endTime : Option Int
deriving DecidableEq, Repr

/-- The filter of the event-listing query built by `events_videos_export`:
`/MonitorId:{monitor_id}/StartTime <=:{end}` — the raw requested end time,
with no buffer added. -/
def serverFilter (monitor_id : Int) (dt_end : Int) (ev : DbEv) : Bool :=
  ev.monitorId == monitor_id && decide (ev.startTime ≤ dt_end)

/-- Modelled from the spec: the fetch predicate the spec describes for the
event-collection query, "all events with `start_time <= end + buffer`"
(for the requested monitor).  Kept separate from `serverFilter`, the
predicate the source actually builds, so the two can be compared. -/
def specFetchFilter (monitor_id : Int) (dt_end bufS : Int) (ev : DbEv) : Bool :=
  ev.monitorId == monitor_id && decide (ev.startTime ≤ dt_end + bufS)

/-- The trim data computed for one retained event (`ClipStart`, `ClipEnd`,
`OffsetSec`, `DurationSec`; the 3-decimal rounding applied when the record
is serialised is the identity on these whole-second values). -/
structure ClipInfo where
  ev : DbEv
  clipStart : Int
  clipEnd : Int
  offsetSec : Int
  durationSec : Int
deriving DecidableEq, Repr

/-- The per-event body of the collection loop of `events_videos_export`:
skip ongoing events, require overlap with the buffered window, require a
minimum actual intersection of `buffer` seconds, compute the trim offsets,
and drop events whose kept duration is not positive.  `bufS` is
`BUF.total_seconds() = max(0, buffer)`.  The float slack test
`overlap_secs + 1e-6 < bufS` is carried exactly, scaled by `10^6` so that
it stays integral. -/
def eventKeep (dt_start dt_end bufS : Int) (ev : DbEv) : Option ClipInfo :=
  match ev.endTime with
  | none => none
  | some ev_end =>
      let ev_start := ev.startTime
      let dt_start_adj := dt_start - bufS
      let dt_end_adj := dt_end + bufS
      if ¬(ev_start ≤ dt_end_adj ∧ dt_start_adj ≤ ev_end) then none
      else
        let overlap_start := max ev_start dt_start
        let overlap_end := min ev_end dt_end
        let overlap_secs := max 0 (overlap_end - overlap_start)
        if 1000000 * overlap_secs + 1 < 1000000 * bufS then none
        else
          let clip_start := max ev_start dt_start
          let clip_end := min ev_end dt_end
          let offset_secs := max 0 (clip_start - ev_start)
          let duration_secs := max 0 (clip_end - clip_start)
          if duration_secs ≤ 0 then none
          else some ⟨ev, clip_start, clip_end, offset_secs, duration_secs⟩

/-- The retained events of the export run: the database rows matching the
query filter, passed through the per-event collection body (pagination
ascends `StartTime`, so the concatenation over pages is the filtered
list). -/
def collectRetained (monitor_id : Int) (dt_start dt_end bufS : Int)
    (db : List DbEv) : List ClipInfo :=
  (db.filter (serverFilter monitor_id dt_end)).filterMap
    (eventKeep dt_start dt_end bufS)

/-- Modelled from the spec: the same collection run over the fetch
predicate the spec states (`start_time <= end + buffer`). -/
def collectRetainedSpec (monitor_id : Int) (dt_start dt_end bufS : Int)
    (db : List DbEv) : List ClipInfo :=
  (db.filter (specFetchFilter monitor_id dt_end bufS)).filterMap
    (eventKeep dt_start dt_end bufS)

/-- Splits a character list on every occurrence of `sep`
(`str.split(sep)` semantics: `n` separators give `n + 1` parts). -/
def splitOnChar (sep : Char) : List Char → List (List Char)
  | [] => [[]]
  | c :: cs =>
      match splitOnChar sep cs with
      | [] => [[]]
      | cur :: rest =>
          if c = sep then [] :: cur :: rest else (c :: cur) :: rest

/-- `str.strip()`: drops whitespace from both ends. -/
def stripWs (l : List Char) : List Char :=
  ((l.dropWhile Char.isWhitespace).reverse.dropWhile Char.isWhitespace).reverse

/-- A nonempty all-digit character list as a number. -/
def digitsToNat : List Char → Option Nat
  | [] => none
  | l =>
      if l.all Char.isDigit then
        some (l.foldl (fun acc c => 10 * acc + (c.toNat - '0'.toNat)) 0)
      else none

/-- Python `int(s)`: optional surrounding whitespace, an optional sign,
then decimal digits. -/
def pyInt (l : List Char) : Option Int :=
  match stripWs l with
  | '-' :: rest => (digitsToNat rest).map (fun n => -(n : Int))
  | '+' :: rest => (digitsToNat rest).map (fun n => (n : Int))
  | l' => (digitsToNat l').map (fun n => (n : Int))

/-- `_parse_size(s)` of `_concat_downloads`: a falsy value gives `None`;
otherwise replace `"x"` with `":"` (a single-character substitution),
strip, split on `":"`, and accept exactly two positive integer parts. -/
def parse_size (s : Option String) : Option (Int × Int) :=
  match s with
  | none => none
  | some str =>
      if str = "" then none
      else
        let t := stripWs (str.data.map (fun c => if c = 'x' then ':' else c))
        match splitOnChar ':' t with
        | [a, b] =>
            match pyInt a, pyInt b with
            | some w, some h =>
                if 0 < w ∧ 0 < h then some (w, h) else none
            | _, _ => none
        | _ => none

/-- The concat mode decision of `_concat_downloads`:
`want_speed = abs(speed - 1.0) > 1e-6`,
`want_fps = fps is not None and int(fps) > 0`,
`want_size = _parse_size(size) is not None`;
`"copy"` when none of the three holds, else `"reencode"`.
The speed factor is carried in millionths (`speedM = 10^6 * speed`), so
the float test `abs(speed - 1.0) > 1e-6` is exactly
`|speedM - 1000000| > 1`. -/
def want_fps_of : Option Int → Bool
  | some f => decide (0 < f)
  | none => false

def mode_label (speedM : Int) (fps : Option Int) (size : Option String) : String :=
  let want_speed := decide (|speedM - 1000000| > 1)
  let want_fps := want_fps_of fps
  let want_size := (parse_size size).isSome
  if !want_speed && !want_fps && !want_size then "copy" else "reencode"

/-- One progress-snapshot record as written by `_counter_write` (the fields
the monotonicity claim is about). -/
structure Snap where
  phase : String
  status : String
  total : Nat
  done : Int
deriving DecidableEq, Repr

/-- The `done` value computed from one `out_time_ms` line:
`frac = min(1, max(0, elapsed / eff_total))`,
`done = floor(frac * total_clips)`, clamped to `total_clips - 1` while the
encoder is running. -/
def doneOf (effTotal : ℚ) (totalClips : Nat) (elapsed : ℚ) : Int :=
  let frac := min 1 (max 0 (elapsed / effTotal))
  let d := ⌊frac * (totalClips : ℚ)⌋
  if (totalClips : Int) ≤ d then (totalClips : Int) - 1 else d

/-- The intermediate snapshots of the `-progress` loop of
`_run_ffmpeg_with_progress`: each update is an `out_time_ms` value (in
microseconds) together with the outcome of the wall-clock throttle test
`now - last_update_ts > 0.25`; a snapshot is written only when the new
`done` exceeds `last_done`. -/
def progressUpdates (effTotal : ℚ) (totalClips : Nat) :
    List (ℚ × Bool) → Int → List Snap
  | [], _ => []
  | (outMs, emit) :: rest, lastDone =>
      if emit then
        let d := doneOf effTotal totalClips (outMs / 1000000)
        if lastDone < d then
          ⟨"concat", "running", totalClips, d⟩ ::
            progressUpdates effTotal totalClips rest d
        else progressUpdates effTotal totalClips rest lastDone
      else progressUpdates effTotal totalClips rest lastDone

/-- All snapshots written by `_run_ffmpeg_with_progress`: the guards
`eff_total = effective_total_duration if > 0 else 1.0` and
`total_clips = max(1, total_clips)`, the intermediate loop started at
`last_done = -1`, and the final snapshot reporting `done = total_clips`
with status `"done"` on success and `"error"` otherwise. -/
def run_ffmpeg_snaps (effDur : ℚ) (clips : Nat) (updates : List (ℚ × Bool))
    (ok : Bool) : List Snap :=
  let effTotal := if 0 < effDur then effDur else 1
  let totalClips := max 1 clips
  progressUpdates effTotal totalClips updates (-1) ++
    [⟨"concat", if ok then "done" else "error", totalClips, totalClips⟩]

/-- The concat-phase snapshots written during one `_concat_downloads` run
that reaches ffmpeg (`n = len(clip_paths)`): the announce snapshot
(`done = 0`), the snapshots of `_run_ffmpeg_with_progress`, and then
either the error snapshot with `done = 0` or the success snapshot with
`done = n`. -/
def concat_snaps (effDur : ℚ) (n : Nat) (updates : List (ℚ × Bool))
    (ok : Bool) : List Snap :=
  ⟨"concat", "running", n, 0⟩ ::
    run_ffmpeg_snaps effDur n updates ok ++
      (if ok then [⟨"concat", "done", n, (n : Int)⟩]
       else [⟨"concat", "error", n, 0⟩])

/-- The download-phase snapshots written by `_download_and_trim` for one
event while the downloaded counter stands at `d`: the pre-request
"downloading" snapshot, one identical "downloading" snapshot per received
chunk (every snapshot reports `done = stats["downloaded"]`), then either
the "file_done" snapshot with the incremented counter on success, or an
"error" snapshot (HTTP failure or exception) with the counter
unchanged. -/
def downloadEventSnaps (total d chunks : Nat) (success : Bool) : List Snap :=
  List.replicate (chunks + 1)
      ⟨"download", "downloading", total, (d : Int)⟩ ++
    (if success then [⟨"download", "file_done", total, (d : Int) + 1⟩]
     else [⟨"download", "error", total, (d : Int)⟩])

/-- `stats["downloaded"]` after the download loop: the number of
successful downloads. -/
def downloadsDone (outcomes : List (Nat × Bool)) : Nat :=
  (outcomes.filter (fun o => o.2)).length

/-- The download loop of `_download_and_trim` over the per-event outcomes
(chunks received, success), threading the `stats["downloaded"]`
counter. -/
def downloadLoopSnaps (total : Nat) : Nat → List (Nat × Bool) → List Snap
  | _, [] => []
  | d, (chunks, success) :: rest =>
      downloadEventSnaps total d chunks success ++
        downloadLoopSnaps total (if success then d + 1 else d) rest

/-- All download-phase snapshots of a `_download_and_trim` run with
`download` enabled and a nonempty event list (`total = len(events_out)`):
the "starting" snapshot, the loop snapshots, and the final "done"
snapshot reporting the downloaded count.  The trim step in between writes
no snapshots. -/
def download_and_trim_snaps (total : Nat) (outcomes : List (Nat × Bool)) :
    List Snap :=
  ⟨"download", "starting", total, 0⟩ ::
    downloadLoopSnaps total 0 outcomes ++
      [⟨"download", "done", total, (downloadsDone outcomes : Int)⟩]

end Export

/-- The download-independent part of the loop state: everything except the
`queue` of video files written by successful downloads. -/
def coreOf (st : Poll.St) :
    List (String × Int) × List (String × Poll.Ev) × List (String × List Int)
      × List String × Option Poll.Ev :=
  (st.processed, st.pending, st.windows, st.attempts, st.leaked)

/-- Two loop states agreeing on everything except possibly the `queue`. -/
def statesMatch (s1 s2 : Poll.St) : Prop :=
  s1.processed = s2.processed ∧ s1.pending = s2.pending
    ∧ s1.windows = s2.windows ∧ s1.attempts = s2.attempts
    ∧ s1.leaked = s2.leaked

/-- `statesMatch` lifted to the fallible cycle results. -/
def OMatch : Option Poll.St → Option Poll.St → Prop
  | none, none => True
  | some a, some b => statesMatch a b
  | _, _ => False


theorem dropWhile_head_not_sat {α} (p : α → Bool) (l : List α) (c : α)
    (h : (l.dropWhile p).head? = some c) : p c = false := by
  have hd := List.head?_dropWhile_not p l
  rw [h] at hd
  exact hd

theorem dropWhile_getLast_of_ne_nil {α} (p : α → Bool) (l : List α)
    (h : l.dropWhile p ≠ []) : (l.dropWhile p).getLast? = l.getLast? := by
  induction l with
  | nil => simp [List.dropWhile] at h
  | cons a l ih =>
    rw [List.dropWhile_cons] at h ⊢
    by_cases hp : p a
    · simp only [hp, if_true] at h ⊢
      cases l with
      | nil => simp [List.dropWhile] at h
      | cons b l2 =>
          rw [List.getLast?_cons_cons]
          exact ih h
    · simp [hp]

theorem subRuns_allowed (l : List Char) :
    ∀ (b : Bool), ∀ c ∈ Export.subRuns b l, Export.allowedChar c = true := by
  induction l with
  | nil => intro b c hc; simp [Export.subRuns] at hc
  | cons a l ih =>
    intro b c hc
    simp only [Export.subRuns] at hc
    split at hc
    · rcases List.mem_cons.mp hc with h | h
      · subst h; assumption
      · exact ih false c h
    · split at hc
      · exact ih true c hc
      · rcases List.mem_cons.mp hc with h | h
        · subst h; decide
        · exact ih true c h

theorem stripDashes_subset (l : List Char) :
    ∀ c ∈ Export.stripDashes l, c ∈ l := by
  intro c hc
  unfold Export.stripDashes at hc
  rw [List.mem_reverse] at hc
  have h1 := (List.dropWhile_sublist _).subset hc
  rw [List.mem_reverse] at h1
  exact (List.dropWhile_sublist _).subset h1

theorem stripDashes_head_ne (l : List Char) (c : Char)
    (h : (Export.stripDashes l).head? = some c) : c ≠ '-' := by
  unfold Export.stripDashes at h
  rw [List.head?_reverse] at h
  have hne : ((l.dropWhile (fun c => c = '-')).reverse.dropWhile (fun c => c = '-')) ≠ [] := by
    intro hnil
    rw [hnil] at h
    simp at h
  rw [dropWhile_getLast_of_ne_nil _ _ hne, List.getLast?_reverse] at h
  have := dropWhile_head_not_sat _ _ _ h
  simpa using this

theorem stripDashes_getLast_ne (l : List Char) (c : Char)
    (h : (Export.stripDashes l).getLast? = some c) : c ≠ '-' := by
  unfold Export.stripDashes at h
  rw [List.getLast?_reverse] at h
  have := dropWhile_head_not_sat _ _ _ h
  simpa using this

/-- C10: for every caller-supplied `job_id` (including absent and empty),
the snapshot file name derived by `_counter_path` is
`counter_<sanitized>.json`, where the sanitized part produced by
`_safe_id` contains only characters from `[A-Za-z0-9._-]` and neither
starts nor ends with `'-'`; in particular the name contains no path
separator, so the snapshot file always lies directly inside the temp
directory. -/
theorem C10_counter_file_name_safe (job_id : Option String) :
    (∀ c ∈ (Export.safe_id job_id).data, Export.allowedChar c = true)
    ∧ (∀ c, (Export.safe_id job_id).data.head? = some c → c ≠ '-')
    ∧ (∀ c, (Export.safe_id job_id).data.getLast? = some c → c ≠ '-')
    ∧ '/' ∉ (Export.counter_path_name job_id).data := by
  have hchars : ∀ c ∈ (Export.safe_id job_id).data, Export.allowedChar c = true := by
    intro c hc
    exact subRuns_allowed _ false c (stripDashes_subset _ c hc)
  refine ⟨hchars, ?_, ?_, ?_⟩
  · intro c hc
    exact stripDashes_head_ne _ c hc
  · intro c hc
    exact stripDashes_getLast_ne _ c hc
  · intro hmem
    unfold Export.counter_path_name at hmem
    rw [String.data_append, String.data_append, List.mem_append, List.mem_append] at hmem
    rcases hmem with (h | h) | h
    · exact absurd h (by decide)
    · have := hchars _ h
      simp [Export.allowedChar] at this
    · exact absurd h (by decide)

theorem dictGet_dictInsert_self {α} (k : String) (v : α) (d : List (String × α)) :
    Poll.dictGet k (Poll.dictInsert k v d) = some v := by
  induction d with
  | nil => simp [Poll.dictInsert, Poll.dictGet]
  | cons p d ih =>
    obtain ⟨k1, v1⟩ := p
    by_cases h : k1 = k
    · simp [Poll.dictInsert, Poll.dictGet, h]
    · simp [Poll.dictInsert, Poll.dictGet, h, ih]

theorem download_preserves_processed (ok : String → Bool) (eid cam : String)
    (st : Poll.St) :
    (Poll.download_event_video ok eid cam st).2.processed = st.processed := by
  unfold Poll.download_event_video
  split <;> rfl

theorem runWindow_flags_of_span (W : Int) (T : Nat) :
    ∀ (ts win : List Int),
      (∀ x ∈ win, ∀ t ∈ ts, t - W ≤ x) →
      (∀ a ∈ ts, ∀ b ∈ ts, a - b ≤ W) →
      (Poll.runWindow W T win ts).2
        = (List.range ts.length).map (fun i => decide (win.length + i < T)) := by
  intro ts
  induction ts with
  | nil => intro win hwin hspan; simp [Poll.runWindow]
  | cons t ts ih =>
    intro win hwin hspan
    have hkeep : Poll.windowStep W win t = win ++ [t] := by
      unfold Poll.windowStep
      congr 1
      apply List.filter_eq_self.mpr
      intro x hx
      exact decide_eq_true (hwin x hx t (List.mem_cons_self t ts))
    have hwin2 : ∀ x ∈ win ++ [t], ∀ u ∈ ts, u - W ≤ x := by
      intro x hx u hu
      rcases List.mem_append.mp hx with h | h
      · exact hwin x h u (List.mem_cons_of_mem t hu)
      · have hx2 : x = t := by simpa using h
        have := hspan u (List.mem_cons_of_mem t hu) t (List.mem_cons_self t ts)
        omega
    have hspan2 : ∀ a ∈ ts, ∀ b ∈ ts, a - b ≤ W := by
      intro a ha b hb
      exact hspan a (List.mem_cons_of_mem t ha) b (List.mem_cons_of_mem t hb)
    have hflag : (!Poll.slideSuppress T (Poll.windowStep W win t))
        = decide (win.length + 0 < T) := by
      rw [hkeep]
      unfold Poll.slideSuppress
      rw [← decide_not]
      apply decide_eq_decide.mpr
      simp
      omega
    show (!Poll.slideSuppress T (Poll.windowStep W win t)) ::
          (Poll.runWindow W T (Poll.windowStep W win t) ts).2 = _
    rw [hflag, hkeep, ih (win ++ [t]) hwin2 hspan2]
    simp only [List.length_cons, List.range_succ_eq_map, List.map_cons,
      List.map_map]
    congr 1
    apply List.map_congr_left
    intro i hi
    apply decide_eq_decide.mpr
    simp only [Function.comp_apply, List.length_append, List.length_cons,
      List.length_nil]
    omega

/-- C2: for every camera, feeding the sliding-window filter a sequence of
closed events whose timestamps all lie within one `TIME_WINDOW`-second
span, starting from an empty window, downloads exactly the first
`THRESHOLD` events — the `i`-th event is allowed through if and only if
`i < THRESHOLD` (0-based), so the `(THRESHOLD+1)`-th and all later events
in the span are suppressed (strict greater-than after insertion) — and
every closed event evaluated by the filter, suppressed or not, gets a
processed-ID entry carrying its event time. -/
theorem C2_sliding_window_rate_limit (W : Int) (T : Nat) :
    (∀ ts : List Int, (∀ a ∈ ts, ∀ b ∈ ts, a - b ≤ W) →
        (Poll.runWindow W T [] ts).2
          = (List.range ts.length).map (fun i => decide (i < T)))
    ∧ (∀ (ok : String → Bool) (st : Poll.St) (ev : Poll.Ev) (e t : Int)
          (st2 : Poll.St),
        ev.endDT = some e → ev.startDT = some t →
        Poll.dictMem ev.id st.processed = false →
        Poll.processFreshEvent W T ok st ev = some st2 →
        Poll.dictGet ev.id st2.processed = some t) := by
  constructor
  · intro ts hspan
    have h := runWindow_flags_of_span W T ts [] (by simp) hspan
    simpa using h
  · intro ok st ev e t st2 he ht hmem hrun
    simp only [Poll.processFreshEvent, he, ht, hmem, Bool.false_eq_true,
      if_false] at hrun
    split at hrun
    · injection hrun with h
      subst h
      exact dictGet_dictInsert_self _ _ _
    · injection hrun with h
      subst h
      rw [download_preserves_processed]
      exact dictGet_dictInsert_self _ _ _

/-- Witness for C2 at `TIME_WINDOW = 60`, `THRESHOLD = 2` and three events
within one span: the first two download, the third is suppressed. -/
theorem C2_witness : (Poll.runWindow 60 2 [] [0, 10, 20]).2 = [true, true, false] := by
  rw [(C2_sliding_window_rate_limit 60 2).1 [0, 10, 20] (by decide)]
  decide

theorem getLastD_ne_default {α} (l : List α) (a b : α) (h : l ≠ []) :
    l.getLastD a = l.getLastD b := by
  cases l with
  | nil => exact absurd rfl h
  | cons c l2 => rw [List.getLastD_cons, List.getLastD_cons]

theorem getLastD_mem {α} (l : List α) (d : α) (h : l ≠ []) :
    l.getLastD d ∈ l := by
  induction l generalizing d with
  | nil => exact absurd rfl h
  | cons c l2 ih =>
    rw [List.getLastD_cons]
    cases hl : l2 with
    | nil => subst hl; simp [List.getLastD]
    | cons e l3 =>
        subst hl
        exact List.mem_cons_of_mem c (ih c (by simp))

theorem runWindow_sorted_inv (W : Int) (T : Nat) (hW : 0 ≤ W) :
    ∀ (ts win : List Int), ts ≠ [] →
      List.Pairwise (· ≤ ·) (win ++ ts) →
      (Poll.runWindow W T win ts).1
        = (win ++ ts).filter (fun x => decide (ts.getLastD 0 - W ≤ x)) := by
  intro ts
  induction ts with
  | nil => intro win h; exact absurd rfl h
  | cons t ts ih =>
    intro win _ hsorted
    cases hts : ts with
    | nil =>
        subst hts
        show (Poll.windowStep W win t)
          = (win ++ [t]).filter (fun x => decide ([t].getLastD 0 - W ≤ x))
        have hq : (fun x => decide (([t].getLastD 0 : Int) - W ≤ x))
            = (fun x => decide (t - W ≤ x)) := rfl
        rw [hq, List.filter_append]
        unfold Poll.windowStep
        congr 1
        rw [List.filter_cons]
        rw [if_pos (by exact decide_eq_true (show t - W ≤ t by omega))]
        rfl
    | cons t2 rest =>
        subst hts
        have hne : t2 :: rest ≠ [] := by simp
        have hassoc : win ++ t :: t2 :: rest = (win ++ [t]) ++ t2 :: rest := by
          simp
        have hsub : List.Sublist
            ((win.filter (fun x => decide (t - W ≤ x)) ++ [t]) ++ t2 :: rest)
            (win ++ t :: t2 :: rest) := by
          rw [hassoc]
          exact List.Sublist.append
            (List.Sublist.append (List.filter_sublist win) (List.Sublist.refl [t]))
            (List.Sublist.refl (t2 :: rest))
        have hsorted2 : List.Pairwise (· ≤ ·)
            ((win.filter (fun x => decide (t - W ≤ x)) ++ [t]) ++ t2 :: rest) :=
          List.Pairwise.sublist hsub hsorted
        have hIH := ih (win.filter (fun x => decide (t - W ≤ x)) ++ [t]) hne hsorted2
        show (Poll.runWindow W T (Poll.windowStep W win t) (t2 :: rest)).1 = _
        rw [show Poll.windowStep W win t
            = win.filter (fun x => decide (t - W ≤ x)) ++ [t] from rfl]
        rw [hIH]
        have hlast : (t2 :: rest).getLastD 0 = (t :: t2 :: rest).getLastD 0 := by
          rw [List.getLastD_cons 0 t (t2 :: rest)]
          exact getLastD_ne_default (t2 :: rest) 0 t (by simp)
        rw [hlast, hassoc]
        have htle : t ≤ (t :: t2 :: rest).getLastD 0 := by
          have hmem := getLastD_mem (t :: t2 :: rest) 0 (by simp)
          have hpw : List.Pairwise (· ≤ ·) (t :: t2 :: rest) :=
            (List.pairwise_append.mp hsorted).2.1
          rcases List.mem_cons.mp hmem with h | h
          · omega
          · exact (List.pairwise_cons.mp hpw).1 _ h
        simp only [List.filter_append]
        congr 2
        rw [List.filter_filter]
        apply List.filter_congr
        intro x _
        cases hqx : decide ((t :: t2 :: rest).getLastD 0 - W ≤ x) with
        | false => rfl
        | true =>
            rw [Bool.true_and]
            exact decide_eq_true (by have := of_decide_eq_true hqx; omega)

/-- C5 counterexample: the sequence of closed events with timestamps
`[1000, 0]` (out of order, as the events endpoint returns newest first)
leaves `1000` in the in-memory window although `1000` is not within
`TIME_WINDOW = 60` seconds of the most recently evaluated event's
timestamp `0` — a timestamp outside the window remains. -/
theorem C5_window_counterexample :
    1000 ∈ (Poll.runWindow 60 10 [] [1000, 0]).1
    ∧ ¬((0 : Int) - 60 ≤ 1000 ∧ (1000 : Int) ≤ 0) := by decide

/-- C5 amended: for a nonnegative `TIME_WINDOW` and a camera whose event
timestamps are evaluated in non-decreasing order, after each evaluation
the in-memory window contains exactly those of the timestamps recorded so
far that are within `TIME_WINDOW` seconds at or before the most recently
evaluated event's timestamp.  (For out-of-order sequences the pruning
only removes entries older than `event_time - TIME_WINDOW`, so later
stale entries can remain — see the counterexample.) -/
theorem C5_sorted_window_exact (W : Int) (T : Nat) (ts : List Int)
    (hW : 0 ≤ W) (hsorted : List.Pairwise (· ≤ ·) ts) :
    ∀ k < ts.length,
      (Poll.runWindow W T [] (ts.take (k + 1))).1
        = (ts.take (k + 1)).filter
            (fun x => decide ((ts.take (k + 1)).getLastD 0 - W ≤ x)) := by
  intro k hk
  have hne : ts.take (k + 1) ≠ [] := by
    apply List.ne_nil_of_length_pos
    rw [List.length_take]
    omega
  have hpw : List.Pairwise (· ≤ ·) (ts.take (k + 1)) :=
    List.Pairwise.sublist (List.take_sublist (k + 1) ts) hsorted
  have h := runWindow_sorted_inv W T hW (ts.take (k + 1)) [] hne (by simpa using hpw)
  simpa using h

/-- Witness for the amended C5 at `TIME_WINDOW = 60` with the sorted
sequence `[0, 30, 100]`, taken in full (`k = 2`). -/
theorem C5_witness :
    (Poll.runWindow 60 10 [] (([0, 30, 100] : List Int).take (2 + 1))).1
      = (([0, 30, 100] : List Int).take (2 + 1)).filter
          (fun x => decide ((([0, 30, 100] : List Int).take (2 + 1)).getLastD 0 - 60 ≤ x)) :=
  C5_sorted_window_exact 60 10 [0, 30, 100] (by decide) (by decide) 2 (by decide)

/-- C7: for every retained export event, `offset_sec` equals the
(non-negative) number of seconds from the event's start to the later of
the event start and the requested window start, and `duration_sec` equals
the (positive) length of the intersection of the event span with the
unbuffered window; any closed event whose intersection with the
unbuffered window has non-positive length is discarded. -/
theorem C7_trim_offsets_correct (dt_start dt_end bufS m s ev_end : Int) :
    (∀ info,
        Export.eventKeep dt_start dt_end bufS ⟨m, s, some ev_end⟩ = some info →
        info.offsetSec = max s dt_start - s
        ∧ 0 ≤ info.offsetSec
        ∧ info.durationSec = min ev_end dt_end - max s dt_start
        ∧ 0 < info.durationSec)
    ∧ (min ev_end dt_end - max s dt_start ≤ 0 →
        Export.eventKeep dt_start dt_end bufS ⟨m, s, some ev_end⟩ = none) := by
  constructor
  · intro info hinfo
    simp only [Export.eventKeep] at hinfo
    split at hinfo
    · exact absurd hinfo (by simp)
    · split at hinfo
      · exact absurd hinfo (by simp)
      · split at hinfo
        · exact absurd hinfo (by simp)
        · rename_i hdur
          injection hinfo with h
          subst h
          refine ⟨?_, ?_, ?_, ?_⟩
          · show max 0 (max s dt_start - s) = max s dt_start - s
            omega
          · show (0 : Int) ≤ max 0 (max s dt_start - s)
            omega
          · show max 0 (min ev_end dt_end - max s dt_start)
                = min ev_end dt_end - max s dt_start
            omega
          · show (0 : Int) < max 0 (min ev_end dt_end - max s dt_start)
            omega
  · intro hle
    simp only [Export.eventKeep]
    split
    · rfl
    · split
      · rfl
      · split
        · rfl
        · rename_i hdur
          exact absurd
            (show max 0 (min ev_end dt_end - max s dt_start) ≤ 0 by omega) hdur

/-- Witness for C7: the event spanning `[0, 60]` against the requested
window `[10, 40]` with buffer 0 is retained with `offset_sec = 10` and
`duration_sec = 30`. -/
theorem C7_witness :
    (Export.eventKeep 10 40 0 ⟨1, 0, some 60⟩).map Export.ClipInfo.offsetSec
      = some 10
    ∧ (Export.eventKeep 10 40 0 ⟨1, 0, some 60⟩).map Export.ClipInfo.durationSec
      = some 30 := by
  have hsome : Export.eventKeep 10 40 0 ⟨1, 0, some 60⟩
      = some ⟨⟨1, 0, some 60⟩, 10, 40, 10, 30⟩ := by decide
  obtain ⟨h1, h2, h3, h4⟩ :=
    (C7_trim_offsets_correct 10 40 0 1 0 60).1 _ hsome
  rw [hsome]
  exact ⟨rfl, rfl⟩

theorem eventKeep_none_of_late (dt_start dt_end bufS m s : Int)
    (te : Option Int) (h : dt_end < s) :
    Export.eventKeep dt_start dt_end bufS ⟨m, s, te⟩ = none := by
  cases te with
  | none => rfl
  | some e =>
      simp only [Export.eventKeep]
      split
      · rfl
      · split
        · rfl
        · split
          · rfl
          · rename_i hdur
            exact absurd
              (show max 0 (min e dt_end - max s dt_start) ≤ 0 by omega) hdur

theorem filterMap_filter_congr {α β} (p q : α → Bool) (g : α → Option β)
    (l : List α)
    (hpq : ∀ a, p a = true → q a = true)
    (hg : ∀ a, p a = false → q a = true → g a = none) :
    (l.filter p).filterMap g = (l.filter q).filterMap g := by
  induction l with
  | nil => rfl
  | cons a l ih =>
    rw [List.filter_cons, List.filter_cons]
    cases hp : p a with
    | true =>
        have hq := hpq a hp
        simp only [hq, if_true]
        rw [List.filterMap_cons, List.filterMap_cons]
        cases hga : g a with
        | none => exact ih
        | some b => rw [ih]
    | false =>
        cases hq : q a with
        | false => simpa using ih
        | true =>
            have hnone := hg a hp hq
            simp only [if_true, Bool.false_eq_true, if_false]
            rw [List.filterMap_cons, hnone]
            exact ih

/-- C4 counterexample: with requested end time 100 and buffer 2, the event
of monitor 1 starting at time 101 satisfies the fetch predicate stated by
the claim (`start_time <= end + buffer`) but not the filter the code puts
in the query URL (`StartTime <=:` the raw end), so it is never fetched. -/
theorem C4_fetch_bound_counterexample :
    Export.serverFilter 1 100 ⟨1, 101, some 103⟩ = false
    ∧ Export.specFetchFilter 1 100 2 ⟨1, 101, some 103⟩ = true := by decide

/-- C4 amended: the event-collection query fetches, page by page in
ascending start-time order, the events of the requested monitor whose
`start_time` is at most the raw requested end time — not `end + buffer` —
so an event starting in `(end, end + buffer]` is never fetched; the set of
retained events is nevertheless unaffected, because every event starting
after `end` would be discarded by the positive-duration filter anyway. -/
theorem C4_retained_set_unaffected (monitor_id dt_start dt_end bufS : Int)
    (hbuf : 0 ≤ bufS) (db : List Export.DbEv) :
    Export.collectRetained monitor_id dt_start dt_end bufS db
      = Export.collectRetainedSpec monitor_id dt_start dt_end bufS db := by
  unfold Export.collectRetained Export.collectRetainedSpec
  apply filterMap_filter_congr
  · intro ev hp
    unfold Export.serverFilter at hp
    unfold Export.specFetchFilter
    rw [Bool.and_eq_true] at hp ⊢
    exact ⟨hp.1, decide_eq_true (by have := of_decide_eq_true hp.2; omega)⟩
  · intro ev hp hq
    unfold Export.serverFilter at hp
    unfold Export.specFetchFilter at hq
    rw [Bool.and_eq_true] at hq
    have hgt : dt_end < ev.startTime := by
      by_contra hcon
      push_neg at hcon
      rw [hq.1, decide_eq_true hcon] at hp
      simp at hp
    obtain ⟨m, s, te⟩ := ev
    exact eventKeep_none_of_late dt_start dt_end bufS m s te (by simpa using hgt)

/-- Witness for the amended C4 on a two-event database: one overlapping
event and one starting one second after the requested end. -/
theorem C4_witness :
    Export.collectRetained 1 0 100 2 [⟨1, 50, some 120⟩, ⟨1, 101, some 103⟩]
      = Export.collectRetainedSpec 1 0 100 2
          [⟨1, 50, some 120⟩, ⟨1, 101, some 103⟩] :=
  C4_retained_set_unaffected 1 0 100 2 (by decide)
    [⟨1, 50, some 120⟩, ⟨1, 101, some 103⟩]

/-- C8 counterexample: with the default speed (1.0, carried as 1000000
millionths) and no size, setting `fps = 0` — a non-default value, since
the default is absent — still selects mode "copy", because the code only
re-encodes when `int(fps) > 0`; so "copy" does not hold exactly when
speed = 1.0, fps is None and size is None, and a non-default fps does not
force "reencode". -/
theorem C8_mode_counterexample :
    Export.mode_label 1000000 (some 0) none = "copy"
    ∧ (some 0 : Option Int) ≠ none := by decide

/-- C8 amended: the concat mode is "copy" exactly when the speed is within
`1e-6` of 1.0, fps is absent or non-positive, and size is absent or does
not parse as two positive dimensions; in every other case it is
"reencode". -/
theorem C8_mode_copy_iff (speedM : Int) (fps : Option Int)
    (size : Option String) :
    Export.mode_label speedM fps size = "copy"
      ↔ (|speedM - 1000000| ≤ 1
         ∧ (∀ f, fps = some f → f ≤ 0)
         ∧ Export.parse_size size = none) := by
  have hcopy : ("copy" : String) ≠ "reencode" := by decide
  by_cases h1 : |speedM - 1000000| > 1
  · have hmode : Export.mode_label speedM fps size = "reencode" := by
      unfold Export.mode_label
      rw [decide_eq_true h1]
      rfl
    rw [hmode]
    constructor
    · intro h
      exact absurd h.symm hcopy
    · rintro ⟨ha, -, -⟩
      exact absurd ha (by omega)
  · have hws : decide (|speedM - 1000000| > 1) = false := decide_eq_false h1
    cases fps with
    | some f =>
        by_cases h2 : 0 < f
        · have hmode : Export.mode_label speedM (some f) size = "reencode" := by
            unfold Export.mode_label
            rw [hws, show Export.want_fps_of (some f) = decide (0 < f) from rfl,
              decide_eq_true h2]
            rfl
          rw [hmode]
          constructor
          · intro h
            exact absurd h.symm hcopy
          · rintro ⟨-, hf, -⟩
            exact absurd (hf f rfl) (by omega)
        · have hwf : decide (0 < f) = false := decide_eq_false h2
          cases hz : Export.parse_size size with
          | some v =>
              have hmode : Export.mode_label speedM (some f) size = "reencode" := by
                unfold Export.mode_label
                rw [hws, show Export.want_fps_of (some f) = decide (0 < f) from rfl,
                  hwf, hz]
                rfl
              rw [hmode]
              constructor
              · intro h
                exact absurd h.symm hcopy
              · rintro ⟨-, -, hzz⟩
                exact absurd hzz (by simp)
          | none =>
              have hmode : Export.mode_label speedM (some f) size = "copy" := by
                unfold Export.mode_label
                rw [hws, show Export.want_fps_of (some f) = decide (0 < f) from rfl,
                  hwf, hz]
                rfl
              rw [hmode]
              constructor
              · intro _
                refine ⟨by omega, ?_, rfl⟩
                intro g hg
                cases hg
                omega
              · intro _
                rfl
    | none =>
        cases hz : Export.parse_size size with
        | some v =>
            have hmode : Export.mode_label speedM none size = "reencode" := by
              unfold Export.mode_label
              rw [hws, hz]
              rfl
            rw [hmode]
            constructor
            · intro h
              exact absurd h.symm hcopy
            · rintro ⟨-, -, hzz⟩
              exact absurd hzz (by simp)
        | none =>
            have hmode : Export.mode_label speedM none size = "copy" := by
              unfold Export.mode_label
              rw [hws, hz]
              rfl
            rw [hmode]
            constructor
            · intro _
              refine ⟨by omega, ?_, rfl⟩
              intro g hg
              cases hg
            · intro _
              rfl

/-- Witness for the amended C8: all defaults give mode "copy". -/
theorem C8_witness : Export.mode_label 1000000 none none = "copy" := by
  apply (C8_mode_copy_iff 1000000 none none).mpr
  refine ⟨by decide, ?_, rfl⟩
  intro f hf
  cases hf

theorem doneOf_le (effTotal : ℚ) (n : Nat) (x : ℚ) :
    Export.doneOf effTotal n x ≤ (n : Int) - 1 := by
  show (if (n : Int) ≤ ⌊(min 1 (max 0 (x / effTotal))) * (n : ℚ)⌋
        then (n : Int) - 1
        else ⌊(min 1 (max 0 (x / effTotal))) * (n : ℚ)⌋) ≤ (n : Int) - 1
  split
  · omega
  · rename_i h
    omega

theorem progressUpdates_chain (effTotal : ℚ) (n : Nat) :
    ∀ (updates : List (ℚ × Bool)) (lastDone : Int),
      List.Chain' (fun a b => a.done ≤ b.done)
        (Export.progressUpdates effTotal n updates lastDone)
      ∧ ∀ s ∈ Export.progressUpdates effTotal n updates lastDone,
          lastDone < s.done ∧ s.done ≤ (n : Int) - 1 ∧ s.phase = "concat" := by
  intro updates
  induction updates with
  | nil =>
      intro lastDone
      refine ⟨List.chain'_nil, ?_⟩
      intro s hs
      simp [Export.progressUpdates] at hs
  | cons u rest ih =>
      intro lastDone
      obtain ⟨outMs, emit⟩ := u
      show List.Chain' _ (if emit then _ else _) ∧ ∀ s ∈ (if emit then _ else _), _
      cases emit with
      | false => exact ih lastDone
      | true =>
          simp only [if_true]
          by_cases hd : lastDone < Export.doneOf effTotal n (outMs / 1000000)
          · rw [if_pos hd]
            constructor
            · rw [List.chain'_cons']
              refine ⟨?_, (ih _).1⟩
              intro y hy
              have hmem : y ∈ Export.progressUpdates effTotal n rest
                  (Export.doneOf effTotal n (outMs / 1000000)) := by
                cases hl : Export.progressUpdates effTotal n rest
                    (Export.doneOf effTotal n (outMs / 1000000)) with
                | nil => rw [hl] at hy; simp at hy
                | cons a l2 =>
                    rw [hl] at hy
                    simp at hy
                    subst hy
                    exact List.mem_cons_self _ _
              have hb := (ih _).2 y hmem
              show Export.doneOf effTotal n (outMs / 1000000) ≤ y.done
              omega
            · intro s hs
              rcases List.mem_cons.mp hs with h | h
              · subst h
                exact ⟨hd, doneOf_le effTotal n (outMs / 1000000), rfl⟩
              · have hb := (ih _).2 s h
                exact ⟨by omega, hb.2.1, hb.2.2⟩
          · rw [if_neg hd]
            constructor
            · exact (ih lastDone).1
            · intro s hs
              exact (ih lastDone).2 s hs

/-- C6 counterexample: a concat job over two clips whose ffmpeg run fails
(with no intermediate progress updates) writes, all within phase
"concat", the announce snapshot with `done = 0`, the final snapshot of
`_run_ffmpeg_with_progress` with `done = 2`, and then the error snapshot
of `_concat_downloads` with `done = 0` — `done` decreases between two
successive snapshots of the same phase. -/
theorem C6_error_done_decreases :
    Export.concat_snaps 1 2 [] false =
      [⟨"concat", "running", 2, 0⟩, ⟨"concat", "error", 2, 2⟩,
       ⟨"concat", "error", 2, 0⟩]
    ∧ ¬ List.Chain' (fun a b => a.done ≤ b.done) (Export.concat_snaps 1 2 [] false)
    ∧ (∀ s ∈ Export.concat_snaps 1 2 [] false, s.phase = "concat") := by
  have h1 : Export.concat_snaps 1 2 [] false =
      [⟨"concat", "running", 2, 0⟩, ⟨"concat", "error", 2, 2⟩,
       ⟨"concat", "error", 2, 0⟩] := by decide
  refine ⟨h1, ?_, by decide⟩
  rw [h1]
  intro hchain
  rw [List.chain'_cons, List.chain'_cons] at hchain
  exact absurd hchain.2.1 (by decide)

theorem concat_success_monotone (effDur : ℚ) (n : Nat) (hn : 1 ≤ n)
    (updates : List (ℚ × Bool)) :
    List.Chain' (fun a b => a.done ≤ b.done)
      (Export.concat_snaps effDur n updates true)
    ∧ ∀ s ∈ Export.concat_snaps effDur n updates true, s.phase = "concat" := by
  have hN : max 1 n = n := Nat.max_eq_right hn
  have hbase := progressUpdates_chain (if 0 < effDur then effDur else 1) n
      updates (-1)
  set P := Export.progressUpdates (if 0 < effDur then effDur else 1) n
      updates (-1) with hP
  have hfull : Export.concat_snaps effDur n updates true
      = ⟨"concat", "running", n, 0⟩ ::
          ((P ++ [⟨"concat", "done", n, (n : Int)⟩])
            ++ [⟨"concat", "done", n, (n : Int)⟩]) := by
    rw [hP]
    unfold Export.concat_snaps Export.run_ffmpeg_snaps
    rw [hN]
    rfl
  rw [hfull]
  constructor
  · rw [List.chain'_cons']
    constructor
    · intro y hy
      show (0 : Int) ≤ y.done
      cases hPl : P with
      | nil =>
          rw [hPl] at hy
          simp at hy
          subst hy
          show (0 : Int) ≤ (n : Int)
          omega
      | cons a l2 =>
          rw [hPl] at hy
          simp at hy
          subst hy
          have hb := hbase.2 a (by rw [hPl]; exact List.mem_cons_self a l2)
          omega
    · rw [List.chain'_append]
      refine ⟨?_, List.chain'_singleton _, ?_⟩
      · rw [List.chain'_append]
        refine ⟨hbase.1, List.chain'_singleton _, ?_⟩
        intro x hx y hy
        simp at hy
        subst hy
        have hb := hbase.2 x (List.mem_of_mem_getLast? hx)
        show x.done ≤ (n : Int)
        omega
      · intro x hx y hy
        rw [List.getLast?_concat] at hx
        simp at hx hy
        subst hx
        subst hy
        show (n : Int) ≤ (n : Int)
        omega
  · intro s hs
    rcases List.mem_cons.mp hs with h | h
    · rw [h]
    · rcases List.mem_append.mp h with h2 | h2
      · rcases List.mem_append.mp h2 with h3 | h3
        · exact (hbase.2 s h3).2.2
        · simp at h3
          subst h3
          rfl
      · simp at h2
        subst h2
        rfl

theorem chain_done_replicate (c : Nat) (x : Export.Snap) :
    List.Chain' (fun a b => a.done ≤ b.done) (List.replicate c x) := by
  induction c with
  | zero => simp
  | succ c ih =>
      rw [List.replicate_succ, List.chain'_cons']
      refine ⟨?_, ih⟩
      intro y hy
      cases c with
      | zero => simp at hy
      | succ c2 =>
          rw [List.replicate_succ] at hy
          simp at hy
          subst hy
          exact le_refl _

theorem downloadEventSnaps_chain (total d chunks : Nat) (success : Bool) :
    List.Chain' (fun a b => a.done ≤ b.done)
      (Export.downloadEventSnaps total d chunks success)
    ∧ ∀ s ∈ Export.downloadEventSnaps total d chunks success,
        (d : Int) ≤ s.done
        ∧ s.done ≤ (d : Int) + (if success then 1 else 0)
        ∧ s.phase = "download" := by
  cases success with
  | true =>
      constructor
      · unfold Export.downloadEventSnaps
        rw [List.chain'_append]
        refine ⟨chain_done_replicate _ _, by simp, ?_⟩
        intro x hx y hy
        have hxeq := List.eq_of_mem_replicate (List.mem_of_mem_getLast? hx)
        subst hxeq
        simp only [if_true] at hy
        simp at hy
        subst hy
        show (d : Int) ≤ (d : Int) + 1
        omega
      · intro s hs
        unfold Export.downloadEventSnaps at hs
        rcases List.mem_append.mp hs with h | h
        · have := List.eq_of_mem_replicate h
          subst this
          exact ⟨le_refl _, by simp, rfl⟩
        · simp only [if_true] at h
          simp at h
          subst h
          refine ⟨by show (d : Int) ≤ (d : Int) + 1; omega, by simp, rfl⟩
  | false =>
      constructor
      · unfold Export.downloadEventSnaps
        rw [List.chain'_append]
        refine ⟨chain_done_replicate _ _, by simp, ?_⟩
        intro x hx y hy
        have hxeq := List.eq_of_mem_replicate (List.mem_of_mem_getLast? hx)
        subst hxeq
        simp only [Bool.false_eq_true, if_false] at hy
        simp at hy
        subst hy
        exact le_refl _
      · intro s hs
        unfold Export.downloadEventSnaps at hs
        rcases List.mem_append.mp hs with h | h
        · have := List.eq_of_mem_replicate h
          subst this
          exact ⟨le_refl _, by simp, rfl⟩
        · simp only [Bool.false_eq_true, if_false] at h
          simp at h
          subst h
          exact ⟨le_refl _, by simp, rfl⟩

theorem downloadLoopSnaps_chain (total : Nat) :
    ∀ (outs : List (Nat × Bool)) (d : Nat),
      List.Chain' (fun a b => a.done ≤ b.done)
        (Export.downloadLoopSnaps total d outs)
      ∧ ∀ s ∈ Export.downloadLoopSnaps total d outs,
          (d : Int) ≤ s.done
          ∧ s.done ≤ (d : Int) + (Export.downloadsDone outs : Int)
          ∧ s.phase = "download" := by
  intro outs
  induction outs with
  | nil =>
      intro d
      refine ⟨by simp [Export.downloadLoopSnaps], ?_⟩
      intro s hs
      simp [Export.downloadLoopSnaps] at hs
  | cons o rest ih =>
      intro d
      obtain ⟨chunks, success⟩ := o
      have hev := downloadEventSnaps_chain total d chunks success
      have hdd : (Export.downloadsDone ((chunks, success) :: rest) : Int)
          = (if success then 1 else 0) + (Export.downloadsDone rest : Int) := by
        unfold Export.downloadsDone
        rw [List.filter_cons]
        cases success
        · simp
        · simp
          omega
      show List.Chain' _ (Export.downloadEventSnaps total d chunks success ++
          Export.downloadLoopSnaps total (if success then d + 1 else d) rest)
        ∧ ∀ s ∈ Export.downloadEventSnaps total d chunks success ++
            Export.downloadLoopSnaps total (if success then d + 1 else d) rest,
          (d : Int) ≤ s.done
          ∧ s.done ≤ (d : Int)
              + (Export.downloadsDone ((chunks, success) :: rest) : Int)
          ∧ s.phase = "download"
      have hrec := ih (if success then d + 1 else d)
      constructor
      · rw [List.chain'_append]
        refine ⟨hev.1, hrec.1, ?_⟩
        intro x hx y hy
        have hxb := hev.2 x (List.mem_of_mem_getLast? hx)
        have hymem : y ∈ Export.downloadLoopSnaps total
            (if success then d + 1 else d) rest := by
          cases hl : Export.downloadLoopSnaps total
              (if success then d + 1 else d) rest with
          | nil => rw [hl] at hy; simp at hy
          | cons a l2 =>
              rw [hl] at hy
              simp at hy
              subst hy
              exact List.mem_cons_self _ _
        have hyb := hrec.2 y hymem
        cases success with
        | true =>
            simp only [if_true] at hxb hyb
            push_cast at hyb
            omega
        | false =>
            simp only [Bool.false_eq_true, if_false] at hxb hyb
            omega
      · intro s hs
        rcases List.mem_append.mp hs with h | h
        · have hb := hev.2 s h
          refine ⟨hb.1, ?_, hb.2.2⟩
          rw [hdd]
          have hnn : (0 : Int) ≤ (Export.downloadsDone rest : Int) := by omega
          cases success with
          | true => simp only [if_true] at hb ⊢; omega
          | false => simp only [Bool.false_eq_true, if_false] at hb ⊢; omega
        · have hb := hrec.2 s h
          refine ⟨?_, ?_, hb.2.2⟩
          · cases success with
            | true => simp only [if_true] at hb; push_cast at hb; omega
            | false => simp only [Bool.false_eq_true, if_false] at hb; omega
          · rw [hdd]
            cases success with
            | true => simp only [if_true] at hb ⊢; push_cast at hb; omega
            | false => simp only [Bool.false_eq_true, if_false] at hb ⊢; omega

theorem download_snaps_monotone (total : Nat) (outs : List (Nat × Bool)) :
    List.Chain' (fun a b => a.done ≤ b.done)
      (Export.download_and_trim_snaps total outs)
    ∧ ∀ s ∈ Export.download_and_trim_snaps total outs,
        s.phase = "download" := by
  have hloop := downloadLoopSnaps_chain total outs 0
  show List.Chain' _ (⟨"download", "starting", total, 0⟩ ::
      (Export.downloadLoopSnaps total 0 outs ++
        [⟨"download", "done", total, (Export.downloadsDone outs : Int)⟩])) ∧ _
  constructor
  · rw [List.chain'_cons']
    constructor
    · intro y hy
      show (0 : Int) ≤ y.done
      cases hl : Export.downloadLoopSnaps total 0 outs with
      | nil =>
          rw [hl] at hy
          simp at hy
          subst hy
          show (0 : Int) ≤ (Export.downloadsDone outs : Int)
          omega
      | cons a l2 =>
          rw [hl] at hy
          simp at hy
          subst hy
          have hb := hloop.2 a (by rw [hl]; exact List.mem_cons_self _ _)
          omega
    · rw [List.chain'_append]
      refine ⟨hloop.1, List.chain'_singleton _, ?_⟩
      intro x hx y hy
      simp at hy
      subst hy
      have hb := hloop.2 x (List.mem_of_mem_getLast? hx)
      show x.done ≤ (Export.downloadsDone outs : Int)
      omega
  · intro s hs
    rcases List.mem_cons.mp hs with h | h
    · rw [h]
    · rcases List.mem_append.mp h with h2 | h2
      · exact (hloop.2 s h2).2.2
      · simp at h2
        subst h2
        rfl

/-- C6 amended: progress snapshots never report a decreasing `done` value
within the same phase, except on the concat error path.  Within the
download phase, every snapshot reports `done = stats["downloaded"]`, a
counter that only ever increments, so download-phase snapshots are
monotone for every run.  Within the concat phase, the snapshots of a job
whose ffmpeg run succeeds are monotone (intermediate snapshots are only
written when `done` strictly increases and stay below the clip count;
the final snapshots report the full clip count).  On ffmpeg failure,
however, `_concat_downloads` writes a concat-phase error snapshot with
`done = 0` right after the snapshot reporting the full count, so `done`
decreases there — see the counterexample. -/
theorem C6_phase_monotone (effDur : ℚ) (n : Nat) (hn : 1 ≤ n)
    (updates : List (ℚ × Bool)) (total : Nat)
    (outcomes : List (Nat × Bool)) :
    (List.Chain' (fun a b => a.done ≤ b.done)
        (Export.concat_snaps effDur n updates true)
      ∧ ∀ s ∈ Export.concat_snaps effDur n updates true, s.phase = "concat")
    ∧ (List.Chain' (fun a b => a.done ≤ b.done)
        (Export.download_and_trim_snaps total outcomes)
      ∧ ∀ s ∈ Export.download_and_trim_snaps total outcomes,
          s.phase = "download") :=
  ⟨concat_success_monotone effDur n hn updates,
   download_snaps_monotone total outcomes⟩

/-- Witness for the amended C6: a successful two-clip concat job with no
intermediate updates, and a two-event download run whose first event
succeeds after one chunk and whose second fails, both emit monotone
snapshots within their phases. -/
theorem C6_witness :
    (List.Chain' (fun a b => a.done ≤ b.done) (Export.concat_snaps 1 2 [] true)
      ∧ ∀ s ∈ Export.concat_snaps 1 2 [] true, s.phase = "concat")
    ∧ (List.Chain' (fun a b => a.done ≤ b.done)
        (Export.download_and_trim_snaps 2 [(1, true), (0, false)])
      ∧ ∀ s ∈ Export.download_and_trim_snaps 2 [(1, true), (0, false)],
          s.phase = "download") :=
  C6_phase_monotone 1 2 (by decide) [] 2 [(1, true), (0, false)]

/-- C1: in the pending-event reconciliation pass, the timestamp used for
the sliding-window computation and for the processed-ID entry of a pending
event found closed on re-fetch is NOT the `StartDateTime` saved when the
event was first seen open.  Concretely: event "1" became pending with
`StartDateTime = 100`; the next cycle fetches the unrelated closed event
"2" with `StartDateTime = 500`; reconciling "1" stamps its processed-ID
entry and its camera's window with 500 — the start time of "2", read from
the stale part-1 loop variable — instead of 100. -/
theorem C1_pending_uses_foreign_start_time :
    (Poll.runCycle 60 10
        (fun eid => if eid = "1" then some ⟨"1", some 950, "7"⟩ else none)
        (fun _ => true)
        [⟨"2", "8", some 500, some 900⟩]
        ⟨[], [("1", ⟨"1", "7", some 100, none⟩)], [], [], [], none⟩).map
      (fun st => (Poll.dictGet "1" st.processed, Poll.wGet st.windows "7"))
      = some (some 500, [500])
    ∧ Poll.Ev.startDT ⟨"1", "7", some 100, none⟩ = some 100
    ∧ (500 : Int) ≠ 100 := by decide

/-- C3: the per-cycle rewrite of the processed-ID store
(`cleanup_processed_ids`) writes every in-memory entry back verbatim and
drops nothing, so after a cycle's rewrite the persisted store can contain
entries older than the retention horizon.  Concretely, at `now = 7200`
with a one-hour horizon, a cycle run with the two-hour-old entry
`("42", 0)` in memory rewrites the store still containing `("42", 0)`,
even though the horizon filter of `load_processed_ids` (applied only at
startup) would drop that entry. -/
theorem C3_rewrite_keeps_stale_entry :
    (Poll.runCycle 60 10 (fun _ => none) (fun _ => true) []
        ⟨[("42", 0)], [], [], [], [], none⟩).map
      (fun st => Poll.cleanup_processed_ids st.processed) = some [("42", 0)]
    ∧ ¬ (7200 - Poll.PROCESSED_RETENTION_HOURS * 3600 ≤ (0 : Int))
    ∧ Poll.load_processed_ids [("42", 0)] 7200 = [] := by decide

theorem dictMem_dictInsert {α} (k k2 : String) (v : α)
    (d : List (String × α)) :
    Poll.dictMem k (Poll.dictInsert k2 v d)
      = (decide (k2 = k) || Poll.dictMem k d) := by
  induction d with
  | nil =>
      by_cases h : k2 = k
      · simp [Poll.dictInsert, Poll.dictMem, Poll.dictGet, h]
      · simp [Poll.dictInsert, Poll.dictMem, Poll.dictGet, h]
  | cons p d ih =>
      obtain ⟨k1, v1⟩ := p
      by_cases h12 : k1 = k2
      · subst h12
        by_cases hk : k1 = k
        · simp [Poll.dictInsert, Poll.dictMem, Poll.dictGet, hk]
        · simp [Poll.dictInsert, Poll.dictMem, Poll.dictGet, hk]
      · by_cases hk : k1 = k
        · subst hk
          simp [Poll.dictInsert, Poll.dictMem, Poll.dictGet, h12]
        · simp only [Poll.dictInsert, if_neg h12]
          simp only [Poll.dictMem, Poll.dictGet, if_neg hk]
          exact ih

theorem count_append_ne (l : List String) (x a : String) (h : x ≠ a) :
    (l ++ [x]).count a = l.count a := by
  simp [List.count_append, List.count_cons, h]

theorem processFreshEvent_bisim (W : Int) (T : Nat) (ok1 ok2 : String → Bool)
    (ev : Poll.Ev) (p : List (String × Int)) (pd : List (String × Poll.Ev))
    (w : List (String × List Int)) (a q1 q2 : List String)
    (l : Option Poll.Ev) :
    OMatch (Poll.processFreshEvent W T ok1 ⟨p, pd, w, a, q1, l⟩ ev)
           (Poll.processFreshEvent W T ok2 ⟨p, pd, w, a, q2, l⟩ ev) := by
  unfold Poll.processFreshEvent
  by_cases hmem : Poll.dictMem ev.id p
  · simp only [hmem, if_true]
    exact ⟨rfl, rfl, rfl, rfl, rfl⟩
  · simp only [hmem, Bool.false_eq_true, if_false]
    cases hend : ev.endDT with
    | none => exact ⟨rfl, rfl, rfl, rfl, rfl⟩
    | some e =>
        cases hstart : ev.startDT with
        | none => trivial
        | some t =>
            by_cases hsup : Poll.slideSuppress T
                (Poll.windowStep W (Poll.wGet w ev.monitorId) t)
            · simp only [hsup, if_true]
              exact ⟨rfl, rfl, rfl, rfl, rfl⟩
            · simp only [hsup, Bool.false_eq_true, if_false]
              unfold Poll.download_event_video
              by_cases h1 : ok1 ev.id
              · by_cases h2 : ok2 ev.id
                · simp only [h1, h2, if_true]
                  exact ⟨rfl, rfl, rfl, rfl, rfl⟩
                · simp only [h1, h2, if_true, Bool.false_eq_true, if_false]
                  exact ⟨rfl, rfl, rfl, rfl, rfl⟩
              · by_cases h2 : ok2 ev.id
                · simp only [h1, h2, if_true, Bool.false_eq_true, if_false]
                  exact ⟨rfl, rfl, rfl, rfl, rfl⟩
                · simp only [h1, h2, Bool.false_eq_true, if_false]
                  exact ⟨rfl, rfl, rfl, rfl, rfl⟩

theorem processPendingEvent_bisim (W : Int) (T : Nat)
    (fetch : String → Option Poll.Upd) (ok1 ok2 : String → Bool)
    (eid : String) (p : List (String × Int)) (pd : List (String × Poll.Ev))
    (w : List (String × List Int)) (a q1 q2 : List String)
    (l : Option Poll.Ev) :
    OMatch (Poll.processPendingEvent W T fetch ok1 ⟨p, pd, w, a, q1, l⟩ eid)
           (Poll.processPendingEvent W T fetch ok2 ⟨p, pd, w, a, q2, l⟩ eid) := by
  unfold Poll.processPendingEvent
  by_cases hmem : Poll.dictMem eid p
  · simp only [hmem, if_true]
    exact ⟨rfl, rfl, rfl, rfl, rfl⟩
  · simp only [hmem, Bool.false_eq_true, if_false]
    split
    · trivial
    · split
      · exact ⟨rfl, rfl, rfl, rfl, rfl⟩
      · split
        · exact ⟨rfl, rfl, rfl, rfl, rfl⟩
        · split
          · trivial
          · split
            · exact ⟨rfl, rfl, rfl, rfl, rfl⟩
            · unfold Poll.download_event_video
              split
              · split
                · exact ⟨rfl, rfl, rfl, rfl, rfl⟩
                · exact ⟨rfl, rfl, rfl, rfl, rfl⟩
              · split
                · exact ⟨rfl, rfl, rfl, rfl, rfl⟩
                · exact ⟨rfl, rfl, rfl, rfl, rfl⟩

theorem foldCycle_bisim {α} (f1 f2 : Poll.St → α → Option Poll.St)
    (hstep : ∀ (p : List (String × Int)) (pd : List (String × Poll.Ev))
        (w : List (String × List Int)) (a q1 q2 : List String)
        (l : Option Poll.Ev) (x : α),
        OMatch (f1 ⟨p, pd, w, a, q1, l⟩ x) (f2 ⟨p, pd, w, a, q2, l⟩ x)) :
    ∀ (xs : List α) (s1 s2 : Poll.St), statesMatch s1 s2 →
      OMatch (Poll.foldCycle f1 s1 xs) (Poll.foldCycle f2 s2 xs) := by
  intro xs
  induction xs with
  | nil =>
      intro s1 s2 hm
      exact hm
  | cons x xs ih =>
      intro s1 s2 hm
      obtain ⟨p1, pd1, w1, a1, q1, l1⟩ := s1
      obtain ⟨p2, pd2, w2, a2, q2, l2⟩ := s2
      replace hm : p1 = p2 ∧ pd1 = pd2 ∧ w1 = w2 ∧ a1 = a2 ∧ l1 = l2 := hm
      obtain ⟨hp, hpd, hw, ha, hl⟩ := hm
      subst hp; subst hpd; subst hw; subst ha; subst hl
      have h := hstep p1 pd1 w1 a1 q1 q2 l1 x
      show OMatch (match f1 ⟨p1, pd1, w1, a1, q1, l1⟩ x with
          | none => none
          | some st2 => Poll.foldCycle f1 st2 xs)
        (match f2 ⟨p1, pd1, w1, a1, q2, l1⟩ x with
          | none => none
          | some st2 => Poll.foldCycle f2 st2 xs)
      cases h1 : f1 ⟨p1, pd1, w1, a1, q1, l1⟩ x with
      | none =>
          cases h2 : f2 ⟨p1, pd1, w1, a1, q2, l1⟩ x with
          | none => trivial
          | some b => rw [h1, h2] at h; exact h.elim
      | some b1 =>
          cases h2 : f2 ⟨p1, pd1, w1, a1, q2, l1⟩ x with
          | none => rw [h1, h2] at h; exact h.elim
          | some b2 =>
              rw [h1, h2] at h
              exact ih b1 b2 h

theorem runCycle_bisim (W : Int) (T : Nat) (fetch : String → Option Poll.Upd)
    (ok1 ok2 : String → Bool) (events : List Poll.Ev) (s1 s2 : Poll.St)
    (hm : statesMatch s1 s2) :
    OMatch (Poll.runCycle W T fetch ok1 events s1)
           (Poll.runCycle W T fetch ok2 events s2) := by
  unfold Poll.runCycle
  have h1 := foldCycle_bisim (Poll.processFreshEvent W T ok1)
      (Poll.processFreshEvent W T ok2)
      (fun p pd w a q1 q2 l x =>
        processFreshEvent_bisim W T ok1 ok2 x p pd w a q1 q2 l)
      events s1 s2 hm
  cases ha : Poll.foldCycle (Poll.processFreshEvent W T ok1) s1 events with
  | none =>
      cases hb : Poll.foldCycle (Poll.processFreshEvent W T ok2) s2 events with
      | none => trivial
      | some b => rw [ha, hb] at h1; exact h1.elim
  | some a =>
      cases hb : Poll.foldCycle (Poll.processFreshEvent W T ok2) s2 events with
      | none => rw [ha, hb] at h1; exact h1.elim
      | some b =>
          rw [ha, hb] at h1
          show OMatch
            (Poll.foldCycle (Poll.processPendingEvent W T fetch ok1) a
              (a.pending.map Prod.fst))
            (Poll.foldCycle (Poll.processPendingEvent W T fetch ok2) b
              (b.pending.map Prod.fst))
          have hsnap : a.pending.map Prod.fst = b.pending.map Prod.fst := by
            rw [h1.2.1]
          rw [hsnap]
          exact foldCycle_bisim _ _
            (fun p pd w a2 q1 q2 l x =>
              processPendingEvent_bisim W T fetch ok1 ok2 x p pd w a2 q1 q2 l)
            (b.pending.map Prod.fst) a b h1

theorem OMatch_coreOf {o1 o2 : Option Poll.St} (h : OMatch o1 o2) :
    o1.map coreOf = o2.map coreOf := by
  cases o1 with
  | none =>
      cases o2 with
      | none => rfl
      | some b => exact h.elim
  | some a =>
      cases o2 with
      | none => exact h.elim
      | some b =>
          replace h : a.processed = b.processed ∧ a.pending = b.pending
              ∧ a.windows = b.windows ∧ a.attempts = b.attempts
              ∧ a.leaked = b.leaked := h
          obtain ⟨hp, hpd, hw, ha2, hl⟩ := h
          show some (coreOf a) = some (coreOf b)
          unfold coreOf
          rw [hp, hpd, hw, ha2, hl]

theorem processFreshEvent_spec (W : Int) (T : Nat) (ok : String → Bool)
    (ev : Poll.Ev) (p : List (String × Int)) (pd : List (String × Poll.Ev))
    (w : List (String × List Int)) (a q : List String) (l : Option Poll.Ev)
    (st2 : Poll.St)
    (hrun : Poll.processFreshEvent W T ok ⟨p, pd, w, a, q, l⟩ ev = some st2) :
    (st2.attempts = a ∧ st2.processed = p)
    ∨ (∃ t, st2.processed = Poll.dictInsert ev.id t p
        ∧ Poll.dictMem ev.id p = false
        ∧ (st2.attempts = a ∨ st2.attempts = a ++ [ev.id])
        ∧ Poll.dictMem ev.id st2.processed = true) := by
  unfold Poll.processFreshEvent at hrun
  by_cases hm2 : Poll.dictMem ev.id p
  · simp only [hm2, if_true] at hrun
    injection hrun with h
    subst h
    exact Or.inl ⟨rfl, rfl⟩
  · have hm2f : Poll.dictMem ev.id p = false := by simpa using hm2
    simp only [hm2f, Bool.false_eq_true, if_false] at hrun
    split at hrun
    · split at hrun
      · exact absurd hrun (by simp)
      · rename_i t ht
        split at hrun
        · injection hrun with h
          subst h
          refine Or.inr ⟨t, rfl, hm2f, Or.inl rfl, ?_⟩
          rw [dictMem_dictInsert]
          simp
        · unfold Poll.download_event_video at hrun
          split at hrun
          · injection hrun with h
            subst h
            refine Or.inr ⟨t, rfl, hm2f, Or.inr rfl, ?_⟩
            rw [dictMem_dictInsert]
            simp
          · injection hrun with h
            subst h
            refine Or.inr ⟨t, rfl, hm2f, Or.inr rfl, ?_⟩
            rw [dictMem_dictInsert]
            simp
    · injection hrun with h
      subst h
      exact Or.inl ⟨rfl, rfl⟩

theorem processPendingEvent_spec (W : Int) (T : Nat)
    (fetch : String → Option Poll.Upd) (ok : String → Bool) (eid2 : String)
    (p : List (String × Int)) (pd : List (String × Poll.Ev))
    (w : List (String × List Int)) (a q : List String) (l : Option Poll.Ev)
    (st2 : Poll.St)
    (hrun : Poll.processPendingEvent W T fetch ok ⟨p, pd, w, a, q, l⟩ eid2
      = some st2) :
    (st2.attempts = a ∧ st2.processed = p)
    ∨ (∃ t, st2.processed = Poll.dictInsert eid2 t p
        ∧ Poll.dictMem eid2 p = false
        ∧ (st2.attempts = a ∨ st2.attempts = a ++ [eid2])
        ∧ Poll.dictMem eid2 st2.processed = true) := by
  unfold Poll.processPendingEvent at hrun
  by_cases hm2 : Poll.dictMem eid2 p
  · simp only [hm2, if_true] at hrun
    injection hrun with h
    subst h
    exact Or.inl ⟨rfl, rfl⟩
  · have hm2f : Poll.dictMem eid2 p = false := by simpa using hm2
    simp only [hm2f, Bool.false_eq_true, if_false] at hrun
    split at hrun
    · exact absurd hrun (by simp)
    · split at hrun
      · injection hrun with h
        subst h
        exact Or.inl ⟨rfl, rfl⟩
      · split at hrun
        · injection hrun with h
          subst h
          exact Or.inl ⟨rfl, rfl⟩
        · split at hrun
          · exact absurd hrun (by simp)
          · rename_i t ht
            split at hrun
            · injection hrun with h
              subst h
              refine Or.inr ⟨t, rfl, hm2f, Or.inl rfl, ?_⟩
              rw [dictMem_dictInsert]
              simp
            · unfold Poll.download_event_video at hrun
              split at hrun
              · injection hrun with h
                subst h
                refine Or.inr ⟨t, rfl, hm2f, Or.inr rfl, ?_⟩
                rw [dictMem_dictInsert]
                simp
              · injection hrun with h
                subst h
                refine Or.inr ⟨t, rfl, hm2f, Or.inr rfl, ?_⟩
                rw [dictMem_dictInsert]
                simp

theorem step_preserves_of_spec (eid : String) (p : List (String × Int))
    (a : List String) (st2 : Poll.St)
    (hmem : Poll.dictMem eid p = true)
    (hspec : (st2.attempts = a ∧ st2.processed = p)
      ∨ (∃ (k : String) (t : Int), st2.processed = Poll.dictInsert k t p
          ∧ Poll.dictMem k p = false
          ∧ (st2.attempts = a ∨ st2.attempts = a ++ [k]))) :
    Poll.dictMem eid st2.processed = true
    ∧ st2.attempts.count eid = a.count eid := by
  rcases hspec with ⟨ha, hp⟩ | ⟨k, t, hp, hkf, ha⟩
  · rw [hp, ha]
    exact ⟨hmem, rfl⟩
  · have hk : k ≠ eid := by
      intro h
      rw [h, hmem] at hkf
      cases hkf
    constructor
    · rw [hp, dictMem_dictInsert, hmem]
      simp
    · rcases ha with ha | ha
      · rw [ha]
      · rw [ha]
        exact count_append_ne a k eid hk

theorem foldCycle_preserves {α} (f : Poll.St → α → Option Poll.St)
    (eid : String)
    (hstep : ∀ (s : Poll.St) (x : α) (st2 : Poll.St), f s x = some st2 →
        Poll.dictMem eid s.processed = true →
        Poll.dictMem eid st2.processed = true
        ∧ st2.attempts.count eid = s.attempts.count eid) :
    ∀ (xs : List α) (s st2 : Poll.St),
      Poll.foldCycle f s xs = some st2 →
      Poll.dictMem eid s.processed = true →
      Poll.dictMem eid st2.processed = true
      ∧ st2.attempts.count eid = s.attempts.count eid := by
  intro xs
  induction xs with
  | nil =>
      intro s st2 hfold hmem
      have h : s = st2 := by
        simpa [Poll.foldCycle] using hfold
      rw [← h]
      exact ⟨hmem, rfl⟩
  | cons x xs ih =>
      intro s st2 hfold hmem
      cases hf : f s x with
      | none =>
          rw [show Poll.foldCycle f s (x :: xs)
              = (match f s x with
                 | none => none
                 | some st3 => Poll.foldCycle f st3 xs) from rfl, hf] at hfold
          exact absurd hfold (by simp)
      | some mid =>
          have hp := hstep s x mid hf hmem
          have hrest : Poll.foldCycle f mid xs = some st2 := by
            rw [show Poll.foldCycle f s (x :: xs)
                = (match f s x with
                   | none => none
                   | some st3 => Poll.foldCycle f st3 xs) from rfl, hf] at hfold
            exact hfold
          have hq := ih mid st2 hrest hp.1
          exact ⟨hq.1, by rw [hq.2, hp.2]⟩

theorem processFreshEvent_preserves (W : Int) (T : Nat) (ok : String → Bool)
    (eid : String) (s : Poll.St) (x : Poll.Ev) (st2 : Poll.St)
    (hf : Poll.processFreshEvent W T ok s x = some st2)
    (hmem : Poll.dictMem eid s.processed = true) :
    Poll.dictMem eid st2.processed = true
    ∧ st2.attempts.count eid = s.attempts.count eid := by
  obtain ⟨p, pd, w, a, q, l⟩ := s
  have hspec := processFreshEvent_spec W T ok x p pd w a q l st2 hf
  exact step_preserves_of_spec eid p a st2 hmem
    (hspec.imp id (fun ⟨t, h1, h2, h3, _⟩ => ⟨x.id, t, h1, h2, h3⟩))

theorem processPendingEvent_preserves (W : Int) (T : Nat)
    (fetch : String → Option Poll.Upd) (ok : String → Bool)
    (eid : String) (s : Poll.St) (x : String) (st2 : Poll.St)
    (hf : Poll.processPendingEvent W T fetch ok s x = some st2)
    (hmem : Poll.dictMem eid s.processed = true) :
    Poll.dictMem eid st2.processed = true
    ∧ st2.attempts.count eid = s.attempts.count eid := by
  obtain ⟨p, pd, w, a, q, l⟩ := s
  have hspec := processPendingEvent_spec W T fetch ok x p pd w a q l st2 hf
  exact step_preserves_of_spec eid p a st2 hmem
    (hspec.imp id (fun ⟨t, h1, h2, h3, _⟩ => ⟨x, t, h1, h2, h3⟩))

/-- C9: (1) the loop state after a cycle — processed IDs, pending events,
sliding windows, download attempts, even the leaked loop variable — is
the same whatever the download outcomes are: a failed download rolls
nothing back (only the queue of written video files differs); (2) once an
event ID is in the processed store, a cycle never attempts to download it
again and the ID stays in the store (at-most-once delivery); and (3) in
the fresh-event pass, whenever a download is attempted for an event, the
same step has already recorded the event in the processed store. -/
theorem C9_at_most_once (W : Int) (T : Nat) (fetch : String → Option Poll.Upd)
    (ok1 ok2 : String → Bool) (events : List Poll.Ev) (s : Poll.St) :
    ((Poll.runCycle W T fetch ok1 events s).map coreOf
      = (Poll.runCycle W T fetch ok2 events s).map coreOf)
    ∧ (∀ eid st2, Poll.dictMem eid s.processed = true →
        Poll.runCycle W T fetch ok1 events s = some st2 →
        Poll.dictMem eid st2.processed = true
        ∧ st2.attempts.count eid = s.attempts.count eid)
    ∧ (∀ (p : List (String × Int)) (pd : List (String × Poll.Ev))
        (w : List (String × List Int)) (a q : List String)
        (l : Option Poll.Ev) (ev : Poll.Ev) (st2 : Poll.St),
        Poll.processFreshEvent W T ok1 ⟨p, pd, w, a, q, l⟩ ev = some st2 →
        st2.attempts = a
        ∨ (st2.attempts = a ++ [ev.id]
           ∧ Poll.dictMem ev.id st2.processed = true)) := by
  refine ⟨?_, ?_, ?_⟩
  · exact OMatch_coreOf
      (runCycle_bisim W T fetch ok1 ok2 events s s ⟨rfl, rfl, rfl, rfl, rfl⟩)
  · intro eid st2 hmem hrun
    unfold Poll.runCycle at hrun
    cases h1 : Poll.foldCycle (Poll.processFreshEvent W T ok1) s events with
    | none =>
        rw [h1] at hrun
        exact absurd hrun (by simp)
    | some mid =>
        rw [h1] at hrun
        replace hrun : Poll.foldCycle (Poll.processPendingEvent W T fetch ok1)
            mid (mid.pending.map Prod.fst) = some st2 := hrun
        have hmid := foldCycle_preserves (Poll.processFreshEvent W T ok1) eid
          (fun s x st3 hf hm => processFreshEvent_preserves W T ok1 eid s x st3 hf hm)
          events s mid h1 hmem
        have hfin := foldCycle_preserves
          (Poll.processPendingEvent W T fetch ok1) eid
          (fun s x st3 hf hm =>
            processPendingEvent_preserves W T fetch ok1 eid s x st3 hf hm)
          (mid.pending.map Prod.fst) mid st2 hrun hmid.1
        exact ⟨hfin.1, by rw [hfin.2, hmid.2]⟩
  · intro p pd w a q l ev st2 hrun
    rcases processFreshEvent_spec W T ok1 ev p pd w a q l st2 hrun with
      ⟨ha, -⟩ | ⟨t, -, -, ha, hm⟩
    · exact Or.inl ha
    · rcases ha with ha | ha
      · exact Or.inl ha
      · exact Or.inr ⟨ha, hm⟩

/-- Witness for C9: with event "5" already in the processed store, a cycle
that fetches the closed event "5" again neither downloads it nor drops
the store entry. -/
theorem C9_witness :
    Poll.dictMem "5"
        (Poll.St.processed ⟨[("5", 0)], [], [], [], [],
          some ⟨"5", "2", some 10, some 20⟩⟩) = true
    ∧ (Poll.St.attempts ⟨[("5", 0)], [], [], [], [],
          some ⟨"5", "2", some 10, some 20⟩⟩).count "5"
        = (Poll.St.attempts ⟨[("5", 0)], [], [], [], [], none⟩).count "5" :=
  (C9_at_most_once 60 10 (fun _ => none) (fun _ => true) (fun _ => false)
      [⟨"5", "2", some 10, some 20⟩] ⟨[("5", 0)], [], [], [], [], none⟩).2.1
    "5" ⟨[("5", 0)], [], [], [], [], some ⟨"5", "2", some 10, some 20⟩⟩
    (by decide) (by decide)
